import Mathlib

/-!
Verification model of the azure_ragcellerator document-processing core:
the recursive text splitter, the chunk identity function, the embedding
batcher with retry, and the index reconciler.  Text is modelled as a list
of characters; machine integers as Nat.  Fallible remote calls are
modelled with Except; injected functions stand for the remote services.
-/

namespace Rag

abbrev Text := List Char

/-- Embedding vectors: the float components are never computed on by the
core, so they are modelled as opaque integer lists. -/
abbrev Vec := List Int

/-- Whitespace predicate used by the Python str.strip / str.isspace calls
(the ASCII whitespace characters, which are the only ones the pipeline
meets). -/
def isPySpace (c : Char) : Bool :=
  c = ' ' || c = '\t' || c = '\n' || c = '\r' || c = '\x0b' || c = '\x0c'

/-- Model of Python str.strip(): drop leading and trailing whitespace. -/
def stripChars (s : Text) : Text :=
  ((s.dropWhile isPySpace).reverse.dropWhile isPySpace).reverse

/-- Model of the Python substring test (separator in text) for a
separator that is known to be non-empty at the call site. -/
def hasInfix (text sep : Text) : Bool :=
  match text with
  | [] => sep.isEmpty
  | _ :: cs => sep.isPrefixOf text || hasInfix cs sep

/-- Model of Python text.split(sep) for non-empty sep, structured with an
explicit fuel argument so that it is kernel-computable; the fuel branch
is unreachable once fuel covers the text length. -/
def splitOnSepF (sep : Text) : Nat → Text → List Text
  | _, [] => [[]]
  | 0, t => [t]
  | fuel + 1, c :: cs =>
    if sep ≠ [] ∧ sep.isPrefixOf (c :: cs) then
      [] :: splitOnSepF sep fuel ((c :: cs).drop sep.length)
    else
      match splitOnSepF sep fuel cs with
      | [] => [[c]]
      | s :: ss => (c :: s) :: ss

def splitOnSep (sep t : Text) : List Text :=
  splitOnSepF sep t.length t

namespace TextSplitter

/-- The separator preference list of TextSplitter.DEFAULT_SEPARATORS. -/
def DEFAULT_SEPARATORS : List Text :=
  [['\n', '\n'], ['\n'], ['.', ' '], ['!', ' '], ['?', ' '], [';', ' '],
   [',', ' '], [' '], []]

/-- Model of TextSplitter._split_by_size: slice the text into pieces of
size characters (fuel makes it structural; the source raises for a zero
size, which the configuration invariant overlap < size rules out). -/
def splitBySizeF (size : Nat) : Nat → Text → List Text
  | _, [] => []
  | 0, t => [t]
  | fuel + 1, c :: cs => (c :: cs).take size :: splitBySizeF size fuel ((c :: cs).drop size)

def splitBySize (size : Nat) (t : Text) : List Text :=
  splitBySizeF size t.length t

/-- Model of TextSplitter._split_text: recursively split using the
separator list; parts no longer than size are kept as atomic segments,
larger parts are split again with the remaining separators. -/
def splitText (size : Nat) : Text → List Text → List Text
  | text, [] => splitBySize size text
  | text, sep :: rest =>
    if sep = [] then splitBySize size text
    else if hasInfix text sep = false then splitText size text rest
    else
      (splitOnSep sep text).flatMap fun part =>
        if part.length ≤ size then [part] else splitText size part rest

/-- State of the TextSplitter._merge_chunks accumulation loop. -/
structure MergeSt where
  merged : List Text
  current : Text
deriving DecidableEq

/-- One iteration of the TextSplitter._merge_chunks loop body. -/
def mergeStep (size overlap : Nat) (st : MergeSt) (chunk : Text) : MergeSt :=
  if st.current ≠ [] ∧ st.current.length + chunk.length + 1 > size then
    { merged := st.merged ++ [st.current],
      current := st.current.drop (st.current.length - overlap) ++ ' ' :: chunk }
  else if st.current ≠ [] then
    { st with current := st.current ++ ' ' :: chunk }
  else
    { st with current := chunk }

/-- Model of TextSplitter._merge_chunks. -/
def mergeChunks (size overlap : Nat) (chunks : List Text) : List Text :=
  let st := chunks.foldl (mergeStep size overlap) ⟨[], []⟩
  if st.current ≠ [] then st.merged ++ [st.current] else st.merged

end TextSplitter

/-- Model of the Chunk dataclass (models.py).  The embedding field holds
the vector attached by the indexer when one is supplied. -/
structure Chunk where
  chunk_id : Nat
  content : Text
  source_path : Text
  file_name : Text
  page_number : Option Nat := none
  total_chunks : Option Nat := none
  embedding : Option Vec := none
deriving DecidableEq

/-- Model of TextSplitter.split: strip the text, split it recursively,
merge the raw pieces, then build Chunk records, skipping pieces that are
empty after stripping.  The chunk identifier is the enumeration position
in the merged list and total_chunks is the merged-list length, both taken
before the empty pieces are skipped. -/
def TextSplitter.split (size overlap : Nat)
    (text source_path file_name : Text) : List Chunk :=
  if stripChars text = [] then []
  else
    let t := stripChars text
    let raw := splitText size t DEFAULT_SEPARATORS
    let merged := mergeChunks size overlap raw
    let total := merged.length
    merged.enum.filterMap fun p =>
      if stripChars p.2 ≠ [] then
        some { chunk_id := p.1, content := stripChars p.2,
               source_path := source_path, file_name := file_name,
               total_chunks := some total }
      else none

/-- Decimal digit character, as produced by Python string formatting. -/
def digitChar (d : Nat) : Char := Char.ofNat (48 + d)

/-- Model of Python str(k) for a non-negative integer k. -/
def natRepr (k : Nat) : Text :=
  if k = 0 then ['0'] else ((Nat.digits 10 k).map digitChar).reverse

/-- Model of the source-path sanitization in Chunk.document_id: both path
separator characters are replaced by underscores. -/
def sanitizePath (s : Text) : Text :=
  s.map fun c => if c = '/' ∨ c = '\\' then '_' else c

/-- Model of Chunk.document_id as a function of the source path and the
chunk index: sanitized path, a fixed delimiter, and the decimal index. -/
def documentIdOf (source_path : Text) (chunk_id : Nat) : Text :=
  sanitizePath source_path ++ "#chunk_".toList ++ natRepr chunk_id

def Chunk.document_id (c : Chunk) : Text :=
  documentIdOf c.source_path c.chunk_id

/-- Partition a list into consecutive batches of at most B elements,
modelling the range-with-step loops of embed_texts, upsert_chunks and
delete_by_source_path (fuel keeps it structural; the source raises for a
zero step, excluded by hypothesis where it matters). -/
def toBatchesF (B : Nat) : Nat → List α → List (List α)
  | _, [] => []
  | 0, l => [l]
  | fuel + 1, a :: l => (a :: l).take B :: toBatchesF B fuel ((a :: l).drop B)

def toBatches (B : Nat) (l : List α) : List (List α) :=
  toBatchesF B l.length l

namespace EmbeddingService

def MAX_RETRIES : Nat := 3

/-- Retry delays are modelled in whole seconds: every value the doubling
loop produces from the 1.0 second base with the 60.0 second cap is an
integer. -/
def INITIAL_RETRY_DELAY : Nat := 1

def MAX_RETRY_DELAY : Nat := 60

/-- The error classes the embedding call can raise: RateLimitError,
APIConnectionError, and APIError carrying an optional status code. -/
inductive ApiError
  | rateLimit
  | connection
  | api (status_code : Option Nat)
deriving DecidableEq

/-- Failure classification of _embed_batch_with_retry: rate limits and
connection errors always retry; an APIError retries only when a truthy
status code in the 5xx range is present, otherwise it is re-raised. -/
def isRetryable : ApiError → Bool
  | .rateLimit => true
  | .connection => true
  | .api none => false
  | .api (some c) => decide (500 ≤ c ∧ c < 600)

/-- Sanitization of one input text in _embed_batch: a blank entry becomes
a single-space placeholder, an overlong entry is truncated to 30000
characters. -/
def cleanOne (t : Text) : Text :=
  if stripChars t ≠ [] then t.take 30000 else [' ']

def cleanTexts (ts : List Text) : List Text := ts.map cleanOne

/-- Reassembly loop of _embed_batch: start from a None-filled buffer of
length n and place each response item at its explicit index field (an
out-of-range index would raise in the source; it is excluded by the
hypotheses under which this is used). -/
def placeByIndex (n : Nat) (data : List (Nat × Vec)) : List (Option Vec) :=
  data.foldl (fun acc iv => acc.set iv.1 (some iv.2)) (List.replicate n none)

/-- Model of one _embed_batch call.  The remote service is injected as a
function from the sanitized inputs and the attempt number to either an
error or the response data, a list of (index, embedding) pairs in
arbitrary arrival order. -/
def embedBatchAttempt (client : List Text → Nat → Except ApiError (List (Nat × Vec)))
    (texts : List Text) (k : Nat) : Except ApiError (List (Option Vec)) :=
  let clean := cleanTexts texts
  (client clean k).map (placeByIndex clean.length)

/-- Retry loop of _embed_batch_with_retry over the outcomes of successive
attempts: r attempts remain, k is the next attempt number, delay the next
backoff, waits the sleeps performed so far, last the most recent error.
An error result of none corresponds to the unreachable exhaustion path
with no recorded error. -/
def retryGo (f : Nat → Except ApiError R) :
    Nat → Nat → Nat → List Nat → Option ApiError →
    Except (Option ApiError) R × List Nat
  | 0, _, _, waits, last => (.error last, waits)
  | r + 1, k, delay, waits, _ =>
    match f k with
    | .ok v => (.ok v, waits)
    | .error e =>
      if isRetryable e then
        retryGo f r (k + 1) (min (delay * 2) MAX_RETRY_DELAY) (waits ++ [delay]) (some e)
      else (.error (some e), waits)

/-- Model of _embed_batch_with_retry: up to MAX_RETRIES attempts, backoff
starting at the base delay; returns the result together with the list of
backoff waits performed. -/
def embedBatchWithRetry (f : Nat → Except ApiError R) :
    Except (Option ApiError) R × List Nat :=
  retryGo f MAX_RETRIES 0 INITIAL_RETRY_DELAY [] none

/-- Model of embed_texts: process the inputs in batches of B, each batch
through the retry wrapper, concatenating per-batch results in batch
order; a batch that ultimately fails aborts the whole call. -/
def embedTexts (B : Nat) (client : List Text → Nat → Except ApiError (List (Nat × Vec)))
    (texts : List Text) : Except (Option ApiError) (List (Option Vec)) :=
  (toBatches B texts).foldlM
    (fun acc batch =>
      (embedBatchWithRetry (embedBatchAttempt client batch)).1.map (fun v => acc ++ v))
    []

end EmbeddingService

namespace SearchIndexer

def BATCH_SIZE : Nat := 1000

/-- Per-item result reported by the store for upload and delete calls. -/
structure IndexingResult where
  key : Text := []
  succeeded : Bool
  error_message : Option Text := none
deriving DecidableEq

end SearchIndexer

/-- The search document built by Chunk.to_search_document; the timestamp
is an abstract tick. -/
structure SearchDoc where
  id : Text
  content : Text
  sourcePath : Text
  fileName : Text
  chunkId : Nat
  processedAt : Nat
  contentVector : Option Vec := none
  pageNumber : Option Nat := none
  totalChunks : Option Nat := none
deriving DecidableEq

def Chunk.to_search_document (c : Chunk) (processed_at : Nat) : SearchDoc :=
  { id := c.document_id, content := c.content, sourcePath := c.source_path,
    fileName := c.file_name, chunkId := c.chunk_id, processedAt := processed_at,
    contentVector := c.embedding, pageNumber := c.page_number,
    totalChunks := c.total_chunks }

/-- Trace of I/O operations issued against the index store. -/
inductive StoreCall
  | search (source_path : Text)
  | deleteDocs (ids : List Text)
  | upload (docs : List SearchDoc)
deriving DecidableEq

def StoreCall.isUpload : StoreCall → Bool
  | .upload _ => true
  | _ => false

/-- The ValueError raised by the chunk/vector length precondition of
upsert_chunks. -/
inductive ValueErr
  | mismatch
deriving DecidableEq

namespace SearchIndexer

/-- Model of _upsert_batch: count per-item successes of one upload call;
any exception from the call itself is converted into a failure count of
the whole batch size. -/
def upsertBatch (upload : List SearchDoc → Except ε (List IndexingResult))
    (docs : List SearchDoc) : Nat × Nat :=
  match upload docs with
  | .ok results =>
    let success := results.countP (·.succeeded)
    (success, results.length - success)
  | .error _ => (0, docs.length)

/-- Model of upsert_chunks, also yielding the list of store calls made.
The Python truthiness test on the embeddings argument means an absent or
empty vector list skips both the length check and the attachment. -/
def upsertChunks (upload : List SearchDoc → Except ε (List IndexingResult))
    (chunks : List Chunk) (embeddings : Option (List Vec)) (processed_at : Nat) :
    Except ValueErr (Nat × Nat) × List StoreCall :=
  if chunks = [] then (.ok (0, 0), [])
  else
    let embs := embeddings.getD []
    if embs ≠ [] ∧ embs.length ≠ chunks.length then (.error .mismatch, [])
    else
      let tagged := if embs ≠ [] then
        chunks.zipWith (fun c e => { c with embedding := some e }) embs else chunks
      let docs := tagged.map (Chunk.to_search_document · processed_at)
      let batches := toBatches BATCH_SIZE docs
      (.ok (batches.foldl (fun acc b =>
          let sf := upsertBatch upload b
          (acc.1 + sf.1, acc.2 + sf.2)) (0, 0)),
       batches.map StoreCall.upload)

/-- Batch loop of delete_by_source_path: a raising delete call aborts the
loop and propagates; successful calls accumulate the per-item success
count. -/
def deleteBatches (deleteDocs : List Text → Except ε (List IndexingResult)) :
    List (List Text) → Nat → Except ε Nat × List StoreCall
  | [], acc => (.ok acc, [])
  | b :: bs, acc =>
    match deleteDocs b with
    | .error e => (.error e, [.deleteDocs b])
    | .ok rs =>
      let res := deleteBatches deleteDocs bs (acc + rs.countP (·.succeeded))
      (res.1, .deleteDocs b :: res.2)

/-- Model of delete_by_source_path: query the keys for the source path,
then delete them in capped batches; any error from the query or a delete
call propagates to the caller. -/
def deleteBySourcePath (search : Text → Except ε (List Text))
    (deleteDocs : List Text → Except ε (List IndexingResult))
    (source_path : Text) : Except ε Nat × List StoreCall :=
  match search source_path with
  | .error e => (.error e, [.search source_path])
  | .ok ids =>
    if ids = [] then (.ok 0, [.search source_path])
    else
      let res := deleteBatches deleteDocs (toBatches BATCH_SIZE ids) 0
      (res.1, .search source_path :: res.2)

end SearchIndexer

/-- Model of the file name computation in DocumentProcessor.process:
the last slash-separated component of the blob URL. -/
def fileNameOf (blob_url : Text) : Text :=
  (splitOnSep ['/'] blob_url).getLastD []

/-- Outcome of one processing run (the wall-clock timing fields of the
source are omitted: real time is outside the model). -/
structure ProcessingResult where
  source_path : Text
  file_name : Text
  success : Bool
  chunks_created : Nat := 0
  chunks_indexed : Nat := 0
  error_message : Option Text := none
deriving DecidableEq

def failResult (blob_url file_name msg : Text) : ProcessingResult :=
  { source_path := blob_url, file_name := file_name, success := false,
    error_message := some msg }

def mismatchMsg : Text :=
  "Embeddings count must match chunks count".toList

/-- Model of DocumentProcessor.process.  External collaborators are
injected: the supported-type test, blob download, text extraction and
the embedding service (whose internals are modelled separately), plus
the three store primitives; errors are carried as their message text,
matching the str(e) capture of the outer except block.  The second
component is the trace of store calls the run performed. -/
def DocumentProcessor.process
    (is_supported : Text → Bool)
    (download : Text → Except Text Text)
    (extract : Text → Text → Except Text Text)
    (embed : List Text → Except Text (List Vec))
    (search : Text → Except Text (List Text))
    (deleteDocs : List Text → Except Text (List SearchIndexer.IndexingResult))
    (upload : List SearchDoc → Except Text (List SearchIndexer.IndexingResult))
    (size overlap processed_at : Nat)
    (blob_url : Text) : ProcessingResult × List StoreCall :=
  let file_name := fileNameOf blob_url
  if is_supported file_name = false then
    (failResult blob_url file_name ("Unsupported file type: ".toList ++ file_name), [])
  else
    match download blob_url with
    | .error e => (failResult blob_url file_name e, [])
    | .ok content =>
      match extract content file_name with
      | .error e => (failResult blob_url file_name e, [])
      | .ok text =>
        if stripChars text = [] then
          (failResult blob_url file_name "No text content extracted from document".toList, [])
        else
          let chunks := TextSplitter.split size overlap text blob_url file_name
          if chunks = [] then
            (failResult blob_url file_name "No chunks created from document".toList, [])
          else
            match embed (chunks.map Chunk.content) with
            | .error e => (failResult blob_url file_name e, [])
            | .ok embeddings =>
              let del := SearchIndexer.deleteBySourcePath search deleteDocs blob_url
              match del.1 with
              | .error e => (failResult blob_url file_name e, del.2)
              | .ok _ =>
                let ups := SearchIndexer.upsertChunks upload chunks (some embeddings) processed_at
                match ups.1 with
                | .error _ => (failResult blob_url file_name mismatchMsg, del.2 ++ ups.2)
                | .ok sf =>
                  ({ source_path := blob_url, file_name := file_name,
                     success := sf.2 = 0, chunks_created := chunks.length,
                     chunks_indexed := sf.1,
                     error_message := if sf.2 ≠ 0 then
                       some (natRepr sf.2 ++ " chunks failed to index".toList) else none },
                   del.2 ++ ups.2)

/-- Largest length of any text in a list: the measure used to state the
merge-pass overshoot bound. -/
def maxLen (l : List Text) : Nat := l.foldr (fun t m => max t.length m) 0

/-- The backoff delay sequence: j waits starting at d, doubling with the
ceiling applied, exactly as the retry loop updates its delay. -/
def dSeq (d : Nat) : Nat → List Nat
  | 0 => []
  | j + 1 => d :: dSeq (min (d * 2) EmbeddingService.MAX_RETRY_DELAY) j

section Fixtures

/-- Concrete input whose merged chunk list contains a whitespace-only
entry, exercising the empty-chunk filtering of split. -/
def cexText : Text := "aaaa\n\n \n\n \n\nbbbb".toList

def spFix : Text := "docs/a.pdf".toList

def fnFix : Text := "a.pdf".toList

def simpleText : Text := "Test content".toList

/-- Concrete embedding function for witnesses: the vector records the
text length. -/
def embLen (t : Text) : Vec := [Int.ofNat t.length]

/-- Concrete remote client that answers every call successfully but lists
the results in reversed index order. -/
def clientRev (ts : List Text) (_ : Nat) :
    Except EmbeddingService.ApiError (List (Nat × Vec)) :=
  .ok (((List.range ts.length).map fun i => (i, embLen (ts.getD i []))).reverse)

def textsFix : List Text := ["alpha".toList, "b".toList, "gamma".toList]

/-- Concrete attempt outcomes: rate-limited twice, then success. -/
def fRetryFix (k : Nat) :
    Except EmbeddingService.ApiError (List (Option Vec)) :=
  if k < 2 then .error .rateLimit else .ok [some [1]]

def chunkFix : Chunk :=
  { chunk_id := 0, content := "hello".toList, source_path := spFix,
    file_name := fnFix }

def downloadFix (_ : Text) : Except Text Text := .ok simpleText

def extractFix (c _ : Text) : Except Text Text := .ok c

def embedFix (ts : List Text) : Except Text (List Vec) := .ok (ts.map embLen)

def searchFailFix (_ : Text) : Except Text (List Text) := .error "boom".toList

def deleteDocsFix (ids : List Text) :
    Except Text (List SearchIndexer.IndexingResult) :=
  .ok (ids.map fun i => { key := i, succeeded := true })

def uploadFixT (docs : List SearchDoc) :
    Except Text (List SearchIndexer.IndexingResult) :=
  .ok (docs.map fun d => { key := d.id, succeeded := true })

def urlFix : Text := "container/docs/a.pdf".toList

end Fixtures

section IdentityProofs

theorem charToDigit_digitChar {d : Nat} (h : d < 10) :
    (digitChar d).toNat - 48 = d := by
  interval_cases d <;> rfl

theorem recover_natRepr (k : Nat) :
    Nat.ofDigits 10 ((natRepr k).reverse.map fun c => c.toNat - 48) = k := by
  by_cases hk : k = 0
  · subst hk
    simp [natRepr, Nat.ofDigits]
  · simp only [natRepr, hk, if_false, List.reverse_reverse, List.map_map]
    have hmap : ∀ d ∈ Nat.digits 10 k,
        ((fun c : Char => c.toNat - 48) ∘ digitChar) d = id d := fun d hd => by
      simpa using charToDigit_digitChar (Nat.digits_lt_base (by norm_num) hd)
    rw [List.map_congr_left hmap, List.map_id, Nat.ofDigits_digits]

theorem natRepr_inj {a b : Nat} (h : natRepr a = natRepr b) : a = b := by
  have h1 := recover_natRepr a
  rw [h] at h1
  exact h1.symm.trans (recover_natRepr b)

/-- C8: key(sourceId, index) is a pure deterministic function (it is a
function of exactly these two arguments, so identical inputs give the
identical key), and for a fixed sourceId distinct chunk indices give
distinct keys: the key determines the index. -/
theorem document_id_key_determinism (sp : Text) (k1 k2 : Nat) :
    documentIdOf sp k1 = documentIdOf sp k2 ↔ k1 = k2 := by
  constructor
  · intro h
    unfold documentIdOf at h
    rw [List.append_assoc, List.append_assoc] at h
    have h2 := List.append_cancel_left h
    exact natRepr_inj (List.append_cancel_left h2)
  · intro h
    rw [h]

/-- C10: the key function is not injective across source identifiers:
the two distinct paths a/b and a_b collide on every index because the
sanitization maps the path separator to the underscore. -/
theorem document_id_cross_source_collision :
    documentIdOf "a/b".toList 0 = documentIdOf "a_b".toList 0 ∧
      "a/b".toList ≠ "a_b".toList := by
  constructor
  · rfl
  · decide

end IdentityProofs

section SplitterProofs

theorem snd_mem_of_mem_enumFrom {α : Type} :
    ∀ (l : List α) (k : Nat) (p : Nat × α), p ∈ l.enumFrom k → p.2 ∈ l := by
  intro l
  induction l with
  | nil => intro k p hp; simp [List.enumFrom] at hp
  | cons a t ih =>
    intro k p hp
    rcases hp with _ | ⟨_, hp⟩
    · exact List.mem_cons_self a t
    · exact List.mem_cons_of_mem a (ih (k + 1) _ hp)

theorem ids_sublist_enumFrom (f : Nat × Text → Option Chunk)
    (hf : ∀ p c, f p = some c → c.chunk_id = p.1) :
    ∀ (l : List Text) (k : Nat),
      List.Sublist (((l.enumFrom k).filterMap f).map Chunk.chunk_id)
        (List.range' k l.length) := by
  intro l
  induction l with
  | nil => intro k; simp [List.enumFrom]
  | cons a t ih =>
    intro k
    simp only [List.enumFrom, List.filterMap_cons, List.length_cons, List.range'_succ]
    cases hfa : f (k, a) with
    | none => exact (ih (k + 1)).cons k
    | some c =>
      simp only [List.map_cons, hf (k, a) c hfa]
      exact (ih (k + 1)).cons₂ k

theorem split_eq_filterMap (size overlap : Nat) (text sp fn : Text)
    (hs : stripChars text ≠ []) :
    TextSplitter.split size overlap text sp fn =
      (TextSplitter.mergeChunks size overlap
          (TextSplitter.splitText size (stripChars text)
            TextSplitter.DEFAULT_SEPARATORS)).enum.filterMap
        (fun p => if stripChars p.2 ≠ [] then
            some { chunk_id := p.1, content := stripChars p.2, source_path := sp,
                   file_name := fn,
                   total_chunks := some (TextSplitter.mergeChunks size overlap
                     (TextSplitter.splitText size (stripChars text)
                       TextSplitter.DEFAULT_SEPARATORS)).length }
          else none) := by
  rw [TextSplitter.split, if_neg hs]

/-- C1 (amended): the index values carried by the chunks split returns
are strictly increasing in original relative order and are drawn from
0..M-1 where M is the merged-chunk count taken before empty chunks are
dropped (they are the pre-filter enumeration positions of the retained
chunks); they form the full contiguous range 0..N-1 exactly when no
chunk is dropped, but dropping a whitespace-only chunk leaves a gap
because the code numbers before filtering, not after. -/
theorem chunk_ids_strictly_increasing (size overlap : Nat) (text sp fn : Text) :
    List.Sublist ((TextSplitter.split size overlap text sp fn).map Chunk.chunk_id)
      (List.range (TextSplitter.mergeChunks size overlap
        (TextSplitter.splitText size (stripChars text)
          TextSplitter.DEFAULT_SEPARATORS)).length)
    ∧ ((TextSplitter.split size overlap text sp fn).map Chunk.chunk_id).Pairwise (· < ·)
    ∧ ((TextSplitter.split size overlap text sp fn).length =
        (TextSplitter.mergeChunks size overlap
          (TextSplitter.splitText size (stripChars text)
            TextSplitter.DEFAULT_SEPARATORS)).length →
      (TextSplitter.split size overlap text sp fn).map Chunk.chunk_id =
        List.range (TextSplitter.mergeChunks size overlap
          (TextSplitter.splitText size (stripChars text)
            TextSplitter.DEFAULT_SEPARATORS)).length) := by
  have hsub : List.Sublist
      ((TextSplitter.split size overlap text sp fn).map Chunk.chunk_id)
      (List.range (TextSplitter.mergeChunks size overlap
        (TextSplitter.splitText size (stripChars text)
          TextSplitter.DEFAULT_SEPARATORS)).length) := by
    by_cases hs : stripChars text = []
    · rw [TextSplitter.split, if_pos hs]
      exact List.nil_sublist _
    · rw [split_eq_filterMap size overlap text sp fn hs, List.range_eq_range']
      have := ids_sublist_enumFrom
        (fun p => if stripChars p.2 ≠ [] then
            some { chunk_id := p.1, content := stripChars p.2, source_path := sp,
                   file_name := fn,
                   total_chunks := some (TextSplitter.mergeChunks size overlap
                     (TextSplitter.splitText size (stripChars text)
                       TextSplitter.DEFAULT_SEPARATORS)).length }
          else none)
        (by
          intro p c h
          by_cases hc : stripChars p.2 ≠ []
          · simp only [if_pos hc] at h
            cases h
            rfl
          · simp only [if_neg hc] at h
            cases h)
        (TextSplitter.mergeChunks size overlap
          (TextSplitter.splitText size (stripChars text)
            TextSplitter.DEFAULT_SEPARATORS)) 0
      simpa [List.enum] using this
  refine ⟨hsub, List.Pairwise.sublist hsub (List.pairwise_lt_range _), ?_⟩
  intro hlen
  exact hsub.eq_of_length (by rw [List.length_map, hlen, List.length_range])

/-- C1 counterexample: on a text whose merged chunk list contains a
whitespace-only entry, the returned indices are 0, 1, 3 while the claim
requires the contiguous range 0, 1, 2. -/
theorem chunk_ids_contiguity_counterexample :
    ¬ ((TextSplitter.split 4 1 cexText spFix fnFix).map Chunk.chunk_id =
        List.range (TextSplitter.split 4 1 cexText spFix fnFix).length) := by
  decide

/-- C1 witness: on an input where nothing is dropped, the ids are the
full contiguous range. -/
theorem chunk_ids_strictly_increasing_witness :
    (TextSplitter.split 100 20 simpleText spFix fnFix).map Chunk.chunk_id =
      List.range (TextSplitter.mergeChunks 100 20
        (TextSplitter.splitText 100 (stripChars simpleText)
          TextSplitter.DEFAULT_SEPARATORS)).length :=
  (chunk_ids_strictly_increasing 100 20 simpleText spFix fnFix).2.2 (by decide)

/-- C2 (amended): every chunk split returns is stamped with the same
totalChunks value, namely the merged-chunk count taken before empty or
whitespace-only chunks are dropped; this is an upper bound on, and in
general not equal to, the final returned count (equal exactly when no
chunk was dropped). -/
theorem total_chunks_prefilter (size overlap : Nat) (text sp fn : Text) :
    ∀ c ∈ TextSplitter.split size overlap text sp fn,
      c.total_chunks = some (TextSplitter.mergeChunks size overlap
        (TextSplitter.splitText size (stripChars text)
          TextSplitter.DEFAULT_SEPARATORS)).length ∧
      (TextSplitter.split size overlap text sp fn).length ≤
        (TextSplitter.mergeChunks size overlap
          (TextSplitter.splitText size (stripChars text)
            TextSplitter.DEFAULT_SEPARATORS)).length := by
  intro c hc
  by_cases hs : stripChars text = []
  · rw [TextSplitter.split, if_pos hs] at hc
    cases hc
  · rw [split_eq_filterMap size overlap text sp fn hs] at hc ⊢
    constructor
    · rcases List.mem_filterMap.mp hc with ⟨p, _, hgp⟩
      by_cases hp : stripChars p.2 ≠ []
      · simp only [if_pos hp] at hgp
        cases hgp
        rfl
      · simp only [if_neg hp] at hgp
        cases hgp
    · exact le_trans (List.length_filterMap_le _ _) (le_of_eq List.enum_length)

/-- C2 counterexample: a run returning three chunks all stamped with
totalChunks = 4, the pre-filter count. -/
theorem total_chunks_postfilter_counterexample :
    ¬ (∀ c ∈ TextSplitter.split 4 1 cexText spFix fnFix,
        c.total_chunks = some (TextSplitter.split 4 1 cexText spFix fnFix).length) := by
  decide

/-- C2 witness at a concrete member chunk of a concrete run. -/
theorem total_chunks_prefilter_witness :
    ({ chunk_id := 0, content := simpleText, source_path := spFix,
       file_name := fnFix, total_chunks := some 1 } : Chunk).total_chunks =
        some (TextSplitter.mergeChunks 100 20
          (TextSplitter.splitText 100 (stripChars simpleText)
            TextSplitter.DEFAULT_SEPARATORS)).length ∧
      (TextSplitter.split 100 20 simpleText spFix fnFix).length ≤
        (TextSplitter.mergeChunks 100 20
          (TextSplitter.splitText 100 (stripChars simpleText)
            TextSplitter.DEFAULT_SEPARATORS)).length :=
  total_chunks_prefilter 100 20 simpleText spFix fnFix _ (by decide)

theorem le_maxLen : ∀ (l : List Text), ∀ p ∈ l, p.length ≤ maxLen l := by
  intro l
  induction l with
  | nil => intro p hp; cases hp
  | cons a t ih =>
    intro p hp
    rcases List.mem_cons.mp hp with h | h
    · subst h; exact le_max_left _ _
    · exact le_trans (ih p h) (le_max_right _ _)

theorem stripChars_length_le (s : Text) : (stripChars s).length ≤ s.length := by
  unfold stripChars
  rw [List.length_reverse]
  exact le_trans ((List.dropWhile_sublist _).length_le)
    (by rw [List.length_reverse]; exact (List.dropWhile_sublist _).length_le)

theorem mergeStep_bound (size overlap M : Nat) (hov : overlap < size)
    (st : TextSplitter.MergeSt) (a : Text) (ha : a.length ≤ M)
    (hm : ∀ m ∈ st.merged, m.length ≤ size + 1 + M)
    (hc : st.current.length ≤ size + 1 + M) :
    (∀ m ∈ (TextSplitter.mergeStep size overlap st a).merged,
        m.length ≤ size + 1 + M) ∧
      (TextSplitter.mergeStep size overlap st a).current.length ≤ size + 1 + M := by
  unfold TextSplitter.mergeStep
  split
  case isTrue h =>
    constructor
    · intro m hmm
      rcases List.mem_append.mp hmm with h1 | h2
      · exact hm m h1
      · rw [List.mem_singleton] at h2
        subst h2
        exact hc
    · simp only [List.length_append, List.length_drop, List.length_cons]
      omega
  case isFalse h =>
    split
    case isTrue h2 =>
      refine ⟨hm, ?_⟩
      have h3 : ¬ st.current.length + a.length + 1 > size := fun hgt => h ⟨h2, hgt⟩
      simp only [List.length_append, List.length_cons]
      omega
    case isFalse h2 =>
      refine ⟨hm, ?_⟩
      show a.length ≤ size + 1 + M
      omega

theorem merge_fold_bound (size overlap M : Nat) (hov : overlap < size) :
    ∀ (chunks : List Text) (st : TextSplitter.MergeSt),
      (∀ p ∈ chunks, p.length ≤ M) →
      (∀ m ∈ st.merged, m.length ≤ size + 1 + M) →
      st.current.length ≤ size + 1 + M →
      (∀ m ∈ (chunks.foldl (TextSplitter.mergeStep size overlap) st).merged,
          m.length ≤ size + 1 + M) ∧
        (chunks.foldl (TextSplitter.mergeStep size overlap) st).current.length ≤
          size + 1 + M := by
  intro chunks
  induction chunks with
  | nil => intro st _ hm hc; exact ⟨hm, hc⟩
  | cons a t ih =>
    intro st h hm hc
    rw [List.foldl_cons]
    have hstep := mergeStep_bound size overlap M hov st a
      (h a (List.mem_cons_self a t)) hm hc
    exact ih _ (fun p hp => h p (List.mem_cons_of_mem a hp)) hstep.1 hstep.2

theorem mergeChunks_bound (size overlap : Nat) (hov : overlap < size)
    (segs : List Text) :
    ∀ m ∈ TextSplitter.mergeChunks size overlap segs,
      m.length ≤ size + 1 + maxLen segs := by
  intro m hm
  have h := merge_fold_bound size overlap (maxLen segs) hov segs ⟨[], []⟩
    (le_maxLen segs) (by intro x hx; cases hx) (by simp)
  rw [TextSplitter.mergeChunks] at hm
  split at hm
  · rcases List.mem_append.mp hm with h1 | h2
    · exact h.1 m h1
    · rw [List.mem_singleton] at h2
      subst h2
      exact h.2
  · exact h.1 m hm

/-- C7: for a valid configuration (overlap < targetSize), every chunk
split produces, except at most the final one, has content length at most
targetSize plus a single-space separator plus the length of at most one
appended atomic segment: the merge pass may overshoot the budget by one
segment (plus the joining space) before flushing.  The proof in fact
bounds every produced chunk, which implies the claim for all but the
final one. -/
theorem chunk_size_bound (size overlap : Nat) (hov : overlap < size)
    (text sp fn : Text) :
    ∀ c ∈ (TextSplitter.split size overlap text sp fn).dropLast,
      c.content.length ≤ size + 1 +
        maxLen (TextSplitter.splitText size (stripChars text)
          TextSplitter.DEFAULT_SEPARATORS) := by
  intro c hc
  have hc2 : c ∈ TextSplitter.split size overlap text sp fn :=
    (List.dropLast_sublist _).subset hc
  by_cases hs : stripChars text = []
  · rw [TextSplitter.split, if_pos hs] at hc2
    cases hc2
  · rw [split_eq_filterMap size overlap text sp fn hs] at hc2
    rcases List.mem_filterMap.mp hc2 with ⟨p, hp, hgp⟩
    have hmem : p.2 ∈ TextSplitter.mergeChunks size overlap
        (TextSplitter.splitText size (stripChars text)
          TextSplitter.DEFAULT_SEPARATORS) :=
      snd_mem_of_mem_enumFrom _ 0 p hp
    by_cases hq : stripChars p.2 ≠ []
    · simp only [if_pos hq] at hgp
      cases hgp
      exact le_trans (stripChars_length_le p.2)
        (mergeChunks_bound size overlap hov _ p.2 hmem)
    · simp only [if_neg hq] at hgp
      cases hgp

/-- C7 witness at a concrete run: overlap 1 < size 4 and the first
produced chunk satisfies the bound. -/
theorem chunk_size_bound_witness :
    ({ chunk_id := 0, content := "aaaa".toList, source_path := spFix,
       file_name := fnFix, total_chunks := some 4 } : Chunk).content.length ≤
      4 + 1 + maxLen (TextSplitter.splitText 4 (stripChars cexText)
        TextSplitter.DEFAULT_SEPARATORS) :=
  chunk_size_bound 4 1 (by decide) cexText spFix fnFix _ (by decide)

end SplitterProofs

section RetryProofs

open EmbeddingService

theorem retryGo_ok {R : Type} (f : Nat → Except ApiError R) (es : Nat → ApiError)
    (v : R) :
    ∀ (j r k d : Nat) (waits : List Nat) (last : Option ApiError),
      j < r →
      (∀ i, i < j → f (k + i) = .error (es (k + i)) ∧
        isRetryable (es (k + i)) = true) →
      f (k + j) = .ok v →
      retryGo f r k d waits last = (.ok v, waits ++ dSeq d j) := by
  intro j
  induction j with
  | zero =>
    intro r k d waits last hr _ hok
    obtain ⟨r', rfl⟩ : ∃ r', r = r' + 1 := ⟨r - 1, by omega⟩
    rw [Nat.add_zero] at hok
    simp [retryGo, hok, dSeq]
  | succ j ih =>
    intro r k d waits last hr hpre hok
    obtain ⟨r', rfl⟩ : ∃ r', r = r' + 1 := ⟨r - 1, by omega⟩
    have h0 := hpre 0 (Nat.succ_pos j)
    rw [Nat.add_zero] at h0
    have hrec := ih r' (k + 1) (min (d * 2) MAX_RETRY_DELAY) (waits ++ [d])
      (some (es k)) (by omega)
      (fun i hi => by
        have := hpre (i + 1) (by omega)
        rwa [show k + (i + 1) = k + 1 + i by omega] at this)
      (by rwa [show k + 1 + j = k + (j + 1) by omega])
    simp only [retryGo, h0.1, h0.2, if_true, hrec, dSeq]
    rw [List.append_assoc]
    rfl

theorem retryGo_fatal {R : Type} (f : Nat → Except ApiError R) (es : Nat → ApiError)
    (e : ApiError) :
    ∀ (j r k d : Nat) (waits : List Nat) (last : Option ApiError),
      j < r →
      (∀ i, i < j → f (k + i) = .error (es (k + i)) ∧
        isRetryable (es (k + i)) = true) →
      f (k + j) = .error e → isRetryable e = false →
      retryGo f r k d waits last = (.error (some e), waits ++ dSeq d j) := by
  intro j
  induction j with
  | zero =>
    intro r k d waits last hr _ herr hnr
    obtain ⟨r', rfl⟩ : ∃ r', r = r' + 1 := ⟨r - 1, by omega⟩
    rw [Nat.add_zero] at herr
    simp [retryGo, herr, hnr, dSeq]
  | succ j ih =>
    intro r k d waits last hr hpre herr hnr
    obtain ⟨r', rfl⟩ : ∃ r', r = r' + 1 := ⟨r - 1, by omega⟩
    have h0 := hpre 0 (Nat.succ_pos j)
    rw [Nat.add_zero] at h0
    have hrec := ih r' (k + 1) (min (d * 2) MAX_RETRY_DELAY) (waits ++ [d])
      (some (es k)) (by omega)
      (fun i hi => by
        have := hpre (i + 1) (by omega)
        rwa [show k + (i + 1) = k + 1 + i by omega] at this)
      (by rwa [show k + 1 + j = k + (j + 1) by omega]) hnr
    simp only [retryGo, h0.1, h0.2, if_true, hrec, dSeq]
    rw [List.append_assoc]
    rfl

theorem retryGo_exhaust {R : Type} (f : Nat → Except ApiError R)
    (es : Nat → ApiError) :
    ∀ (r k d : Nat) (waits : List Nat) (last : Option ApiError),
      0 < r →
      (∀ i, i < r → f (k + i) = .error (es (k + i)) ∧
        isRetryable (es (k + i)) = true) →
      retryGo f r k d waits last =
        (.error (some (es (k + r - 1))), waits ++ dSeq d r) := by
  intro r
  induction r with
  | zero => intro k d waits last h; omega
  | succ r ih =>
    intro k d waits last _ hpre
    have h0 := hpre 0 (Nat.succ_pos r)
    rw [Nat.add_zero] at h0
    by_cases hr : r = 0
    · subst hr
      simp [retryGo, h0.1, h0.2, dSeq]
    · have hrec := ih (k + 1) (min (d * 2) MAX_RETRY_DELAY) (waits ++ [d])
        (some (es k)) (by omega)
        (fun i hi => by
          have := hpre (i + 1) (by omega)
          rwa [show k + (i + 1) = k + 1 + i by omega] at this)
      simp only [retryGo, h0.1, h0.2, if_true, hrec, dSeq]
      rw [List.append_assoc, show k + 1 + r - 1 = k + (r + 1) - 1 by omega]
      rfl

theorem dSeq_closed :
    ∀ (j d : Nat), d ≤ EmbeddingService.MAX_RETRY_DELAY →
      dSeq d j = (List.range j).map
        (fun i => min (d * 2 ^ i) EmbeddingService.MAX_RETRY_DELAY) := by
  intro j
  induction j with
  | zero => intro d _; rfl
  | succ j ih =>
    intro d hd
    rw [dSeq, List.range_succ_eq_map, List.map_cons]
    congr 1
    · simp [Nat.min_eq_left hd]
    · rw [ih _ (Nat.min_le_right _ _), List.map_map]
      apply List.map_congr_left
      intro i _
      show min (min (d * 2) MAX_RETRY_DELAY * 2 ^ i) MAX_RETRY_DELAY =
        min (d * 2 ^ (i + 1)) MAX_RETRY_DELAY
      have hp : 1 ≤ 2 ^ i := Nat.one_le_two_pow
      by_cases h2 : d * 2 ≤ MAX_RETRY_DELAY
      · rw [Nat.min_eq_left h2, pow_succ]
        ring_nf
      · have hlt : MAX_RETRY_DELAY ≤ d * 2 := le_of_lt (Nat.lt_of_not_le h2)
        rw [Nat.min_eq_right hlt]
        have e1 : MAX_RETRY_DELAY ≤ MAX_RETRY_DELAY * 2 ^ i := by
          calc MAX_RETRY_DELAY = MAX_RETRY_DELAY * 1 := by ring
            _ ≤ MAX_RETRY_DELAY * 2 ^ i := Nat.mul_le_mul_left _ hp
        have e2 : MAX_RETRY_DELAY ≤ d * 2 ^ (i + 1) := by
          calc MAX_RETRY_DELAY ≤ d * 2 := hlt
            _ = d * 2 * 1 := by ring
            _ ≤ d * 2 * 2 ^ i := Nat.mul_le_mul_left _ hp
            _ = d * 2 ^ (i + 1) := by rw [pow_succ]; ring
        rw [Nat.min_eq_right e1, Nat.min_eq_right e2]

theorem dSeq_initial (m : Nat) :
    dSeq EmbeddingService.INITIAL_RETRY_DELAY m =
      (List.range m).map (fun i => min (2 ^ i) EmbeddingService.MAX_RETRY_DELAY) := by
  rw [dSeq_closed m INITIAL_RETRY_DELAY (by norm_num [INITIAL_RETRY_DELAY, MAX_RETRY_DELAY])]
  apply List.map_congr_left
  intro i _
  norm_num [INITIAL_RETRY_DELAY]

/-- C4: for each embedding batch call, a retryable failure (rate limit,
connection error, or a 5xx status) causes a wait and a retry, with the
backoff delays following the doubling-with-ceiling sequence starting at
the base delay; at most MAX_RETRIES attempts are made and on exhaustion
the last error is raised with all backoff waits performed; a
non-retryable failure is raised immediately, with no additional wait and
no further attempt. -/
theorem embed_batch_retry_policy {R : Type} (f : Nat → Except EmbeddingService.ApiError R)
    (es : Nat → EmbeddingService.ApiError) (j : Nat)
    (hpre : ∀ i, i < j → f i = .error (es i) ∧
      EmbeddingService.isRetryable (es i) = true) :
    (∀ v, j < EmbeddingService.MAX_RETRIES → f j = .ok v →
        EmbeddingService.embedBatchWithRetry f =
          (.ok v, (List.range j).map
            fun i => min (2 ^ i) EmbeddingService.MAX_RETRY_DELAY))
    ∧ (∀ e, j < EmbeddingService.MAX_RETRIES → f j = .error e →
        EmbeddingService.isRetryable e = false →
        EmbeddingService.embedBatchWithRetry f =
          (.error (some e), (List.range j).map
            fun i => min (2 ^ i) EmbeddingService.MAX_RETRY_DELAY))
    ∧ (j = EmbeddingService.MAX_RETRIES →
        EmbeddingService.embedBatchWithRetry f =
          (.error (some (es (EmbeddingService.MAX_RETRIES - 1))),
            (List.range EmbeddingService.MAX_RETRIES).map
              fun i => min (2 ^ i) EmbeddingService.MAX_RETRY_DELAY)) := by
  have hpre0 : ∀ i, i < j → f (0 + i) = .error (es (0 + i)) ∧
      isRetryable (es (0 + i)) = true := by
    intro i hi
    simpa using hpre i hi
  refine ⟨?_, ?_, ?_⟩
  · intro v hj hok
    rw [embedBatchWithRetry,
      retryGo_ok f es v j MAX_RETRIES 0 INITIAL_RETRY_DELAY [] none hj hpre0
        (by simpa using hok),
      List.nil_append, dSeq_initial]
  · intro e hj herr hnr
    rw [embedBatchWithRetry,
      retryGo_fatal f es e j MAX_RETRIES 0 INITIAL_RETRY_DELAY [] none hj hpre0
        (by simpa using herr) hnr,
      List.nil_append, dSeq_initial]
  · intro hj
    subst hj
    rw [embedBatchWithRetry,
      retryGo_exhaust f es MAX_RETRIES 0 INITIAL_RETRY_DELAY [] none
        (by norm_num [MAX_RETRIES]) hpre0,
      List.nil_append, dSeq_initial, Nat.zero_add]

/-- C4 witness: two rate-limited attempts then success returns the value
with exactly two waits, the second twice the first. -/
theorem embed_batch_retry_policy_witness :
    EmbeddingService.embedBatchWithRetry fRetryFix = (.ok [some [1]], [1, 2]) := by
  have h := (embed_batch_retry_policy fRetryFix (fun _ => .rateLimit) 2
    (by intro i hi; interval_cases i <;> exact ⟨rfl, rfl⟩)).1 [some [1]]
    (by norm_num [EmbeddingService.MAX_RETRIES]) rfl
  have h2 : (List.range 2).map
      (fun i => min (2 ^ i) EmbeddingService.MAX_RETRY_DELAY) = [1, 2] := by decide
  rw [h2] at h
  exact h

end RetryProofs

section EmbedProofs

open EmbeddingService

theorem place_foldl_length :
    ∀ (data : List (Nat × Vec)) (acc : List (Option Vec)),
      (data.foldl (fun a iv => a.set iv.1 (some iv.2)) acc).length = acc.length := by
  intro data
  induction data with
  | nil => intro acc; rfl
  | cons iv rest ih =>
    intro acc
    rw [List.foldl_cons, ih, List.length_set]

theorem place_foldl_get (f : Nat → Vec) :
    ∀ (data : List (Nat × Vec)) (acc : List (Option Vec)) (j : Nat),
      (∀ iv ∈ data, iv.1 < acc.length ∧ iv.2 = f iv.1) →
      (acc[j]? = some (some (f j)) ∨ ∃ v, (j, v) ∈ data) →
      (data.foldl (fun a iv => a.set iv.1 (some iv.2)) acc)[j]? =
        some (some (f j)) := by
  intro data
  induction data with
  | nil =>
    intro acc j _ h2
    rcases h2 with h | ⟨v, hv⟩
    · exact h
    · cases hv
  | cons iv rest ih =>
    intro acc j h1 h2
    rw [List.foldl_cons]
    have hiv := h1 iv (List.mem_cons_self _ _)
    apply ih
    · intro x hx
      have hx2 := h1 x (List.mem_cons_of_mem _ hx)
      rw [List.length_set]
      exact hx2
    · rcases h2 with h | ⟨v, hv⟩
      · left
        by_cases hij : iv.1 = j
        · rw [← hij] at h ⊢
          rw [List.getElem?_set_self hiv.1, hiv.2]
        · rw [List.getElem?_set_ne hij]
          exact h
      · rcases List.mem_cons.mp hv with heq | hrest
        · left
          have h1j : iv.1 = j := by rw [← heq]
          rw [← h1j]
          rw [List.getElem?_set_self hiv.1, hiv.2]
        · right
          exact ⟨v, hrest⟩

theorem placeByIndex_eq (f : Nat → Vec) (n : Nat) (data : List (Nat × Vec))
    (h1 : ∀ iv ∈ data, iv.1 < n ∧ iv.2 = f iv.1)
    (h2 : ∀ j, j < n → ∃ v, (j, v) ∈ data) :
    placeByIndex n data = (List.range n).map (fun j => some (f j)) := by
  apply List.ext_getElem?
  intro j
  by_cases hj : j < n
  · rw [placeByIndex, place_foldl_get f data (List.replicate n none) j
      (by simpa using h1) (Or.inr (h2 j hj))]
    rw [List.getElem?_map, List.getElem?_range hj]
    rfl
  · have hlen : (placeByIndex n data).length = n := by
      rw [placeByIndex, place_foldl_length, List.length_replicate]
    rw [List.getElem?_eq_none (by omega),
      List.getElem?_eq_none (by simp; omega)]

theorem range_map_getD {β : Type} (l : List Text) (g : Text → β) :
    (List.range l.length).map (fun j => g (l.getD j [])) = l.map g := by
  apply List.ext_getElem?
  intro j
  by_cases hj : j < l.length
  · rw [List.getElem?_map, List.getElem?_range hj, List.getElem?_map,
      List.getElem?_eq_getElem hj]
    simp [List.getElem?_eq_getElem hj]
  · rw [List.getElem?_eq_none (by simpa using not_lt.mp hj),
      List.getElem?_eq_none (by simpa using not_lt.mp hj)]

theorem embedBatchAttempt_ok (E : Text → Vec)
    (client : List Text → Nat → Except ApiError (List (Nat × Vec)))
    (HC : ∀ ts k, ∃ data, client ts k = .ok data ∧
        (∀ iv ∈ data, iv.1 < ts.length ∧ iv.2 = E (ts.getD iv.1 [])) ∧
        (∀ j, j < ts.length → ∃ v, (j, v) ∈ data))
    (texts : List Text) :
    embedBatchAttempt client texts 0 =
      .ok (texts.map fun t => some (E (cleanOne t))) := by
  obtain ⟨data, hok, h1, h2⟩ := HC (cleanTexts texts) 0
  rw [embedBatchAttempt]
  simp only [hok, Except.map]
  rw [placeByIndex_eq (fun j => E ((cleanTexts texts).getD j []))
    (cleanTexts texts).length data h1 h2]
  rw [range_map_getD (cleanTexts texts) (fun t => some (E t))]
  rw [cleanTexts, List.map_map]
  rfl

theorem toBatchesF_flatten {α : Type} (B : Nat) (hB : 0 < B) :
    ∀ (fuel : Nat) (l : List α), l.length ≤ fuel →
      (toBatchesF B fuel l).flatten = l := by
  intro fuel
  induction fuel with
  | zero =>
    intro l hl
    rw [List.eq_nil_of_length_eq_zero (Nat.le_zero.mp hl)]
    rfl
  | succ fu ih =>
    intro l hl
    cases l with
    | nil => rfl
    | cons a t =>
      show (List.take B (a :: t) :: toBatchesF B fu (List.drop B (a :: t))).flatten = _
      rw [List.flatten_cons, ih _ (by simp [List.length_drop] at *; omega)]
      exact List.take_append_drop B (a :: t)

theorem toBatches_flatten {α : Type} (B : Nat) (hB : 0 < B) (l : List α) :
    (toBatches B l).flatten = l :=
  toBatchesF_flatten B hB l.length l (le_refl _)

theorem embed_foldlM (client : List Text → Nat → Except ApiError (List (Nat × Vec)))
    (g : Text → Option Vec) :
    ∀ (batches : List (List Text)),
      (∀ b ∈ batches,
        (embedBatchWithRetry (embedBatchAttempt client b)).1 = .ok (b.map g)) →
      ∀ acc : List (Option Vec),
        (batches.foldlM (fun acc batch =>
            (embedBatchWithRetry (embedBatchAttempt client batch)).1.map
              (fun v => acc ++ v)) acc) =
          .ok (acc ++ (batches.map (fun b => b.map g)).flatten) := by
  intro batches
  induction batches with
  | nil =>
    intro _ acc
    simp [List.foldlM_nil]
    rfl
  | cons b bs ih =>
    intro hbatch acc
    rw [List.foldlM_cons, hbatch b (List.mem_cons_self _ _)]
    have hstep : ((Except.ok (b.map g) : Except (Option ApiError) (List (Option Vec))).map
        (fun v => acc ++ v) >>= fun a => bs.foldlM (fun acc batch =>
            (embedBatchWithRetry (embedBatchAttempt client batch)).1.map
              (fun v => acc ++ v)) a) =
        bs.foldlM (fun acc batch =>
            (embedBatchWithRetry (embedBatchAttempt client batch)).1.map
              (fun v => acc ++ v)) (acc ++ b.map g) := rfl
    rw [hstep, ih (fun x hx => hbatch x (List.mem_cons_of_mem _ hx)) (acc ++ b.map g)]
    rw [List.map_cons, List.flatten_cons, List.append_assoc]

/-- C3: for every list of N input texts and any positive batch size B,
under a remote service that answers each call with one indexed result
per sanitized input (in arbitrary arrival order), embed_texts returns
exactly N vectors and the vector at position i is the embedding of
(the sanitized form of) input text i: per-batch results are placed by
the explicit index field, never by arrival order, and per-batch vectors
are concatenated in batch order. -/
theorem embed_texts_alignment (B : Nat) (hB : 0 < B) (E : Text → Vec)
    (client : List Text → Nat → Except EmbeddingService.ApiError (List (Nat × Vec)))
    (HC : ∀ ts k, ∃ data, client ts k = .ok data ∧
        (∀ iv ∈ data, iv.1 < ts.length ∧ iv.2 = E (ts.getD iv.1 [])) ∧
        (∀ j, j < ts.length → ∃ v, (j, v) ∈ data))
    (texts : List Text) :
    EmbeddingService.embedTexts B client texts =
      .ok (texts.map fun t => some (E (EmbeddingService.cleanOne t))) := by
  have hbatch : ∀ b ∈ toBatches B texts,
      (embedBatchWithRetry (embedBatchAttempt client b)).1 =
        .ok (b.map fun t => some (E (cleanOne t))) := by
    intro b _
    have h0 := embedBatchAttempt_ok E client HC b
    rw [embedBatchWithRetry, retryGo_ok (embedBatchAttempt client b)
      (fun _ => .rateLimit) (b.map fun t => some (E (cleanOne t))) 0 MAX_RETRIES 0
      INITIAL_RETRY_DELAY [] none (by norm_num [MAX_RETRIES])
      (fun i hi => absurd hi (Nat.not_lt_zero i)) (by simpa using h0)]
  rw [EmbeddingService.embedTexts,
    embed_foldlM client (fun t => some (E (cleanOne t))) (toBatches B texts) hbatch [],
    List.nil_append]
  show Except.ok (((toBatches B texts).map
    (List.map fun t => some (E (cleanOne t)))).flatten) = _
  rw [← List.map_flatten, toBatches_flatten B hB texts]

/-- C3 witness: three texts, batch size two, a remote that reverses the
order of its per-call results; the output is still the three embeddings
in input position order. -/
theorem embed_texts_alignment_witness :
    EmbeddingService.embedTexts 2 clientRev textsFix =
      .ok [some [5], some [1], some [5]] := by
  have h := embed_texts_alignment 2 (by norm_num) embLen clientRev ?hc textsFix
  case hc =>
    intro ts k
    refine ⟨((List.range ts.length).map fun i => (i, embLen (ts.getD i []))).reverse,
      rfl, ?_, ?_⟩
    · intro iv hiv
      rw [List.mem_reverse] at hiv
      rcases List.mem_map.mp hiv with ⟨i, hi, heq⟩
      rw [← heq]
      exact ⟨List.mem_range.mp hi, rfl⟩
    · intro j hj
      exact ⟨embLen (ts.getD j []), List.mem_reverse.mpr
        (List.mem_map.mpr ⟨j, List.mem_range.mpr hj, rfl⟩)⟩
  rw [h]
  rfl

end EmbedProofs

section IndexerProofs

/-- C6 (amended): when a non-empty vectors sequence whose length differs
from a non-empty chunks sequence is handed to the reconciler, a
precondition error is raised before any I/O (the returned call trace is
empty).  The truthiness test in the source means an empty vectors list
bypasses the check entirely (see the counterexample), as does an empty
chunks list, which returns (0, 0) without I/O. -/
theorem upsert_mismatch_precondition {ε : Type}
    (upload : List SearchDoc → Except ε (List SearchIndexer.IndexingResult))
    (chunks : List Chunk) (embs : List Vec) (ts : Nat)
    (hc : chunks ≠ []) (he : embs ≠ []) (hlen : embs.length ≠ chunks.length) :
    SearchIndexer.upsertChunks upload chunks (some embs) ts =
      (.error .mismatch, []) := by
  simp [SearchIndexer.upsertChunks, hc, he, hlen]

/-- C6 counterexample: an empty vectors list handed with one chunk has a
differing length (0 vs 1) yet no precondition error is raised and the
upload I/O is performed. -/
theorem upsert_empty_vectors_counterexample :
    (SearchIndexer.upsertChunks uploadFixT [chunkFix] (some []) 0).1 = .ok (1, 0) ∧
      (SearchIndexer.upsertChunks uploadFixT [chunkFix] (some []) 0).2.length = 1 ∧
      ([] : List Vec).length ≠ [chunkFix].length := by
  exact ⟨rfl, rfl, by decide⟩

/-- C6 witness at concrete mismatched non-empty inputs. -/
theorem upsert_mismatch_precondition_witness :
    SearchIndexer.upsertChunks uploadFixT [chunkFix] (some [[1], [2]]) 0 =
      (.error .mismatch, []) :=
  upsert_mismatch_precondition uploadFixT [chunkFix] [[1], [2]] 0
    (by decide) (by decide) (by decide)

theorem upsertBatch_sum {ε : Type}
    (upload : List SearchDoc → Except ε (List SearchIndexer.IndexingResult))
    (hlen : ∀ docs res, upload docs = .ok res → res.length = docs.length)
    (docs : List SearchDoc) :
    (SearchIndexer.upsertBatch upload docs).1 +
      (SearchIndexer.upsertBatch upload docs).2 = docs.length := by
  unfold SearchIndexer.upsertBatch
  cases hu : upload docs with
  | ok results =>
    have h1 := hlen docs results hu
    have h2 : results.countP (·.succeeded) ≤ results.length :=
      List.countP_le_length _
    simp only []
    omega
  | error e => simp

theorem fold_counts_sum (g : List SearchDoc → Nat × Nat)
    (hg : ∀ b, (g b).1 + (g b).2 = b.length) :
    ∀ (batches : List (List SearchDoc)) (acc : Nat × Nat),
      ((batches.foldl (fun acc b => (acc.1 + (g b).1, acc.2 + (g b).2)) acc).1 +
        (batches.foldl (fun acc b => (acc.1 + (g b).1, acc.2 + (g b).2)) acc).2) =
        acc.1 + acc.2 + (batches.map List.length).sum := by
  intro batches
  induction batches with
  | nil => intro acc; simp
  | cons b bs ih =>
    intro acc
    rw [List.foldl_cons, ih, List.map_cons, List.sum_cons]
    have := hg b
    omega

/-- C9: once the chunk/vector length check has passed, upsert_chunks
never raises: the result is a success/failure pair, a raising upload
call is converted into a failure count of that batch size, and assuming
the store reports one per-item result per submitted document the counts
sum to the number of chunks. -/
theorem upsert_failure_accounting {ε : Type}
    (upload : List SearchDoc → Except ε (List SearchIndexer.IndexingResult))
    (hlen : ∀ docs res, upload docs = .ok res → res.length = docs.length)
    (chunks : List Chunk) (eo : Option (List Vec)) (ts : Nat)
    (hpass : (eo.getD []).length = chunks.length ∨ eo.getD [] = []) :
    ∃ s f, (SearchIndexer.upsertChunks upload chunks eo ts).1 = .ok (s, f) ∧
      s + f = chunks.length := by
  by_cases hc : chunks = []
  · subst hc
    exact ⟨0, 0, rfl, rfl⟩
  · have hguard : ¬ (eo.getD [] ≠ [] ∧ (eo.getD []).length ≠ chunks.length) := by
      rcases hpass with h | h
      · exact fun hx => hx.2 h
      · exact fun hx => hx.1 h
    have htag :
        (if eo.getD [] ≠ [] then
            chunks.zipWith (fun c e => { c with embedding := some e }) (eo.getD [])
          else chunks).length = chunks.length := by
      split
      case isTrue hne =>
        rcases hpass with h | h
        · rw [List.length_zipWith]
          omega
        · exact absurd h hne
      case isFalse => rfl
    have hres : (SearchIndexer.upsertChunks upload chunks eo ts).1 =
        .ok ((toBatches SearchIndexer.BATCH_SIZE
            ((if eo.getD [] ≠ [] then
                chunks.zipWith (fun c e => { c with embedding := some e }) (eo.getD [])
              else chunks).map (Chunk.to_search_document · ts))).foldl
          (fun acc b => (acc.1 + (SearchIndexer.upsertBatch upload b).1,
            acc.2 + (SearchIndexer.upsertBatch upload b).2)) (0, 0)) := by
      rw [SearchIndexer.upsertChunks, if_neg hc]
      simp only [if_neg hguard]
    refine ⟨_, _, hres, ?_⟩
    have hfold := fold_counts_sum (SearchIndexer.upsertBatch upload)
      (upsertBatch_sum upload hlen)
      (toBatches SearchIndexer.BATCH_SIZE
        ((if eo.getD [] ≠ [] then
            chunks.zipWith (fun c e => { c with embedding := some e }) (eo.getD [])
          else chunks).map (Chunk.to_search_document · ts))) (0, 0)
    rw [hfold, ← List.length_flatten,
      toBatches_flatten SearchIndexer.BATCH_SIZE
        (by norm_num [SearchIndexer.BATCH_SIZE]) _,
      List.length_map, htag]
    simp

/-- C9 witness at a concrete run with one chunk and no vectors. -/
theorem upsert_failure_accounting_witness :
    ∃ s f, (SearchIndexer.upsertChunks uploadFixT [chunkFix] none 0).1 =
        .ok (s, f) ∧ s + f = [chunkFix].length :=
  upsert_failure_accounting uploadFixT
    (fun docs res h => by cases h; rw [List.length_map])
    [chunkFix] none 0 (Or.inr rfl)

end IndexerProofs

section ProcessProofs

theorem deleteBatches_no_upload {ε : Type}
    (dd : List Text → Except ε (List SearchIndexer.IndexingResult)) :
    ∀ (bs : List (List Text)) (acc : Nat),
      ∀ c ∈ (SearchIndexer.deleteBatches dd bs acc).2, c.isUpload = false := by
  intro bs
  induction bs with
  | nil => intro acc c hc; cases hc
  | cons b rest ih =>
    intro acc c hc
    unfold SearchIndexer.deleteBatches at hc
    cases hdb : dd b with
    | error e =>
      rw [hdb] at hc
      simp only [List.mem_singleton] at hc
      subst hc
      rfl
    | ok rs =>
      rw [hdb] at hc
      simp only [List.mem_cons] at hc
      rcases hc with hc | hc
      · subst hc
        rfl
      · exact ih _ c hc

theorem deleteBySourcePath_no_upload {ε : Type}
    (search : Text → Except ε (List Text))
    (dd : List Text → Except ε (List SearchIndexer.IndexingResult))
    (sp : Text) :
    ∀ c ∈ (SearchIndexer.deleteBySourcePath search dd sp).2,
      c.isUpload = false := by
  intro c hc
  unfold SearchIndexer.deleteBySourcePath at hc
  cases hs : search sp with
  | error e =>
    rw [hs] at hc
    simp only [List.mem_singleton] at hc
    subst hc
    rfl
  | ok ids =>
    simp only [hs] at hc
    by_cases hids : ids = []
    · rw [if_pos hids] at hc
      simp only [List.mem_singleton] at hc
      subst hc
      rfl
    · rw [if_neg hids] at hc
      simp only [List.mem_cons] at hc
      rcases hc with hc | hc
      · subst hc
        rfl
      · exact deleteBatches_no_upload dd _ 0 c hc

theorem upsertChunks_all_upload {ε : Type}
    (upload : List SearchDoc → Except ε (List SearchIndexer.IndexingResult))
    (chunks : List Chunk) (eo : Option (List Vec)) (ts : Nat) :
    ∀ c ∈ (SearchIndexer.upsertChunks upload chunks eo ts).2,
      c.isUpload = true := by
  intro c hc
  unfold SearchIndexer.upsertChunks at hc
  by_cases h1 : chunks = []
  · rw [if_pos h1] at hc
    cases hc
  · rw [if_neg h1] at hc
    simp only [] at hc
    by_cases h2 : eo.getD [] ≠ [] ∧ (eo.getD []).length ≠ chunks.length
    · rw [if_pos h2] at hc
      cases hc
    · rw [if_neg h2] at hc
      simp only [List.mem_map] at hc
      rcases hc with ⟨docs, _, hdocs⟩
      rw [← hdocs]
      rfl

/-- C5: in every reprocessing run, every store call the run performs
before the first upload is a query or delete call and every call from
the first upload on is an upload: deletion completes before any upsert
begins.  Moreover, in a run that reaches the reconciliation step (all
earlier stages succeed), an outright error of the query/delete phase
aborts the run, surfaces that error in the returned result, and performs
no upload call at all. -/
theorem delete_before_upsert
    (is_supported : Text → Bool) (download : Text → Except Text Text)
    (extract : Text → Text → Except Text Text)
    (embed : List Text → Except Text (List Vec))
    (search : Text → Except Text (List Text))
    (deleteDocs : List Text → Except Text (List SearchIndexer.IndexingResult))
    (upload : List SearchDoc → Except Text (List SearchIndexer.IndexingResult))
    (size overlap processed_at : Nat) (blob_url : Text) :
    (∃ t1 t2,
      (DocumentProcessor.process is_supported download extract embed search
        deleteDocs upload size overlap processed_at blob_url).2 = t1 ++ t2 ∧
      (∀ c ∈ t1, c.isUpload = false) ∧ (∀ c ∈ t2, c.isUpload = true))
    ∧ (∀ e content text embeddings,
        is_supported (fileNameOf blob_url) = true →
        download blob_url = .ok content →
        extract content (fileNameOf blob_url) = .ok text →
        stripChars text ≠ [] →
        TextSplitter.split size overlap text blob_url (fileNameOf blob_url) ≠ [] →
        embed ((TextSplitter.split size overlap text blob_url
          (fileNameOf blob_url)).map Chunk.content) = .ok embeddings →
        (SearchIndexer.deleteBySourcePath search deleteDocs blob_url).1 = .error e →
        (DocumentProcessor.process is_supported download extract embed search
            deleteDocs upload size overlap processed_at blob_url).1 =
          failResult blob_url (fileNameOf blob_url) e ∧
        ∀ c ∈ (DocumentProcessor.process is_supported download extract embed search
            deleteDocs upload size overlap processed_at blob_url).2,
          c.isUpload = false) := by
  constructor
  · unfold DocumentProcessor.process
    by_cases hsup : is_supported (fileNameOf blob_url) = false
    · simp only [if_pos hsup]
      exact ⟨[], [], rfl, fun c hc => absurd hc (List.not_mem_nil c),
        fun c hc => absurd hc (List.not_mem_nil c)⟩
    · simp only [if_neg hsup]
      cases hdl : download blob_url with
      | error e =>
        simp only [hdl]
        exact ⟨[], [], rfl, fun c hc => absurd hc (List.not_mem_nil c),
          fun c hc => absurd hc (List.not_mem_nil c)⟩
      | ok content =>
        simp only [hdl]
        cases hex : extract content (fileNameOf blob_url) with
        | error e =>
          simp only [hex]
          exact ⟨[], [], rfl, fun c hc => absurd hc (List.not_mem_nil c),
            fun c hc => absurd hc (List.not_mem_nil c)⟩
        | ok text =>
          simp only [hex]
          by_cases hst : stripChars text = []
          · simp only [if_pos hst]
            exact ⟨[], [], rfl, fun c hc => absurd hc (List.not_mem_nil c),
              fun c hc => absurd hc (List.not_mem_nil c)⟩
          · simp only [if_neg hst]
            by_cases hch : TextSplitter.split size overlap text blob_url
                (fileNameOf blob_url) = []
            · simp only [if_pos hch]
              exact ⟨[], [], rfl, fun c hc => absurd hc (List.not_mem_nil c),
                fun c hc => absurd hc (List.not_mem_nil c)⟩
            · simp only [if_neg hch]
              cases hemb : embed ((TextSplitter.split size overlap text blob_url
                  (fileNameOf blob_url)).map Chunk.content) with
              | error e =>
                simp only [hemb]
                exact ⟨[], [], rfl, fun c hc => absurd hc (List.not_mem_nil c),
                  fun c hc => absurd hc (List.not_mem_nil c)⟩
              | ok embeddings =>
                simp only [hemb]
                cases hdel : (SearchIndexer.deleteBySourcePath search deleteDocs
                    blob_url).1 with
                | error e =>
                  simp only [hdel]
                  exact ⟨(SearchIndexer.deleteBySourcePath search deleteDocs
                      blob_url).2, [], (List.append_nil _).symm,
                    deleteBySourcePath_no_upload search deleteDocs blob_url,
                    fun c hc => absurd hc (List.not_mem_nil c)⟩
                | ok n =>
                  simp only [hdel]
                  cases hups : (SearchIndexer.upsertChunks upload
                      (TextSplitter.split size overlap text blob_url
                        (fileNameOf blob_url)) (some embeddings) processed_at).1 with
                  | error e2 =>
                    simp only [hups]
                    exact ⟨(SearchIndexer.deleteBySourcePath search deleteDocs
                        blob_url).2,
                      (SearchIndexer.upsertChunks upload
                        (TextSplitter.split size overlap text blob_url
                          (fileNameOf blob_url)) (some embeddings) processed_at).2,
                      rfl,
                      deleteBySourcePath_no_upload search deleteDocs blob_url,
                      upsertChunks_all_upload upload _ _ processed_at⟩
                  | ok sf =>
                    simp only [hups]
                    exact ⟨(SearchIndexer.deleteBySourcePath search deleteDocs
                        blob_url).2,
                      (SearchIndexer.upsertChunks upload
                        (TextSplitter.split size overlap text blob_url
                          (fileNameOf blob_url)) (some embeddings) processed_at).2,
                      rfl,
                      deleteBySourcePath_no_upload search deleteDocs blob_url,
                      upsertChunks_all_upload upload _ _ processed_at⟩
  · intro e content text embeddings hsup hdl hex hst hch hemb hdel
    unfold DocumentProcessor.process
    simp only [hsup, Bool.true_eq_false, if_false, hdl, hex, if_neg (by simpa using hst),
      if_neg hch, hemb, hdel]
    exact ⟨trivial, deleteBySourcePath_no_upload search deleteDocs blob_url⟩

/-- C5 witness: a concrete run whose stale-entry query fails, showing
the surfaced error and the absence of any upload call. -/
theorem delete_before_upsert_witness :
    (DocumentProcessor.process (fun _ => true) downloadFix extractFix embedFix
        searchFailFix deleteDocsFix uploadFixT 100 20 0 urlFix).1 =
      failResult urlFix (fileNameOf urlFix) "boom".toList ∧
    ∀ c ∈ (DocumentProcessor.process (fun _ => true) downloadFix extractFix
        embedFix searchFailFix deleteDocsFix uploadFixT 100 20 0 urlFix).2,
      c.isUpload = false :=
  (delete_before_upsert (fun _ => true) downloadFix extractFix embedFix
      searchFailFix deleteDocsFix uploadFixT 100 20 0 urlFix).2
    "boom".toList simpleText simpleText [embLen simpleText]
    rfl rfl rfl (by decide) (by decide) rfl rfl

end ProcessProofs

end Rag
